import Mathlib

/-!
Shallow embedding of the DominioExplorer core pipeline
(filter / statistics / pagination / selection) and of the
semantic-keyword service, with verified properties.

Sources embedded:
- `src/App.tsx` : `filteredDomains`, `stats`, `paginatedDomains`,
  `totalPages`, `toggleSelection`, `downloadSelectedList`,
  `handleFileUpload`, the pagination-reset effect;
- `src/unnamed/part_000` (geminiService) : `generateSemanticKeywords`;
- the `types` module : `DomainFilterState`, `PaginationState`, `DomainStats`.

JS strings are modelled as Lean `String` (the domains involved are ASCII, on
which JS UTF-16 semantics and Lean codepoint semantics agree); JS `Array` as
`List`; JS `Set` as an insertion-ordered duplicate-free `List`; JS `Map` as an
insertion-ordered association list; JS numbers that hold integers as `Nat` or
`Int`.
-/

namespace DominioExplorer

/-! ## JS string primitives

`leadsWith hay pat` decides whether `pat` is an initial segment of `hay`;
`strIncludesAux hay pat` decides JS `hay.includes(pat)` (substring
containment, true for the empty pattern); `jsStartsWith`, `jsEndsWith` and
`jsIncludes` lift these to `String`, matching JS `String.prototype.startsWith`
/ `endsWith` / `includes` on the ASCII strings this program handles. -/

def leadsWith : List Char → List Char → Bool
  | _, [] => true
  | [], _ :: _ => false
  | h :: t, a :: b => h == a && leadsWith t b

def strIncludesAux : List Char → List Char → Bool
  | [], pat => pat.isEmpty
  | h :: t, pat => leadsWith (h :: t) pat || strIncludesAux t pat

def jsStartsWith (s p : String) : Bool := leadsWith s.toList p.toList

def jsEndsWith (s p : String) : Bool := leadsWith s.toList.reverse p.toList.reverse

def jsIncludes (s p : String) : Bool := strIncludesAux s.toList p.toList

/-- JS `Array.prototype.slice(start, stop)` (ECMA-262): negative indices count
from the end, indices are clamped to `[0, length]`, and the result is the
elements at positions `[k, final)`. Total for every integer input. -/
def jsSlice {α : Type} (l : List α) (start stop : Int) : List α :=
  let len : Int := l.length
  let k : Int := if start < 0 then max (len + start) 0 else min start len
  let fin : Int := if stop < 0 then max (len + stop) 0 else min stop len
  (l.drop k.toNat).take (fin - k).toNat

/-! ## Data model (`types` module) -/

inductive HasNumbersFilter where
  | all | yes | no
deriving DecidableEq

inductive ExtensionFilter where
  | all | combr | others
deriving DecidableEq

structure DomainFilterState where
  minLength : Nat
  maxLength : Nat
  startsWith : String
  hasNumbers : HasNumbersFilter
  extension : ExtensionFilter
  firstLetter : String
  searchTerm : String
  semanticKeywords : List String
deriving DecidableEq

structure PaginationState where
  currentPage : Int
  itemsPerPage : Nat
deriving DecidableEq

structure StatEntry where
  name : String
  value : Nat
deriving DecidableEq

structure DomainStats where
  total : Nat
  byLength : List StatEntry
  byLetter : List StatEntry
deriving DecidableEq

/-! ## Filter Engine (`filteredDomains` in App.tsx, lines 122-162)

The source reassigns `result` six times; each reassignment is one step
function here, and `filteredDomains` is their composition in source order. -/

/-- Step 1: `d.length >= minLength && d.length <= maxLength`. -/
def lengthStep (f : DomainFilterState) (result : List String) : List String :=
  result.filter fun d => decide (f.minLength ≤ d.length ∧ d.length ≤ f.maxLength)

/-- Step 2: extension class; `others` is the negation of the `.com.br` suffix
test. -/
def extensionStep (f : DomainFilterState) (result : List String) : List String :=
  match f.extension with
  | .combr => result.filter fun d => jsEndsWith d ".com.br"
  | .others => result.filter fun d => ! jsEndsWith d ".com.br"
  | .all => result

/-- Step 3: digit policy, JS regex `/\d/` = an ASCII digit anywhere. -/
def numbersStep (f : DomainFilterState) (result : List String) : List String :=
  match f.hasNumbers with
  | .yes => result.filter fun d => d.toList.any Char.isDigit
  | .no => result.filter fun d => ! d.toList.any Char.isDigit
  | .all => result

/-- Step 4: prefix constraint; JS truthiness skips it for the empty string. -/
def startsWithStep (f : DomainFilterState) (result : List String) : List String :=
  if f.startsWith ≠ "" then result.filter fun d => jsStartsWith d f.startsWith
  else result

/-- Step 5: first-letter constraint, same mechanics as step 4. -/
def firstLetterStep (f : DomainFilterState) (result : List String) : List String :=
  if f.firstLetter ≠ "" then result.filter fun d => jsStartsWith d f.firstLetter
  else result

/-- Step 6: semantic/keyword text match. Non-empty `semanticKeywords` takes
priority: keep `d` iff some keyword is a substring; otherwise a non-empty
`searchTerm` must be a substring; otherwise no constraint. -/
def textStep (f : DomainFilterState) (result : List String) : List String :=
  if f.semanticKeywords ≠ [] then
    result.filter fun d => f.semanticKeywords.any fun keyword => jsIncludes d keyword
  else if f.searchTerm ≠ "" then
    result.filter fun d => jsIncludes d f.searchTerm
  else result

/-- Steps 1-5 of the chain (everything before the text-match step). -/
def nonTextSteps (f : DomainFilterState) (rawDomains : List String) : List String :=
  firstLetterStep f (startsWithStep f (numbersStep f (extensionStep f (lengthStep f rawDomains))))

/-- `filteredDomains` (App.tsx lines 122-162): the full six-step chain. -/
def filteredDomains (rawDomains : List String) (f : DomainFilterState) : List String :=
  textStep f (nonTextSteps f rawDomains)

/-! ## Statistics Aggregator (`stats` in App.tsx, lines 165-186) -/

/-- JS `map.set(k, (map.get(k) || 0) + 1)` on an insertion-ordered map:
increment the existing entry, else append a fresh entry with count 1. -/
def bump {K : Type} [DecidableEq K] (m : List (K × Nat)) (k : K) : List (K × Nat) :=
  if m.any fun p => p.1 = k then
    m.map fun p => if p.1 = k then (p.1, p.2 + 1) else p
  else m ++ [(k, 1)]

/-- The `byLengthMap` frequency map: domain length → count. -/
def byLengthMap (filtered : List String) : List (Nat × Nat) :=
  filtered.foldl (fun m d => bump m d.length) []

/-- The `byLetterMap` frequency map: upper-cased first character → count.
`d.charAt(0)` of an empty string is the empty string, which the
`if (first)` guard skips. -/
def byLetterMap (filtered : List String) : List (Char × Nat) :=
  filtered.foldl
    (fun m d =>
      match d.toList.head? with
      | none => m
      | some c => bump m c.toUpper)
    []

/-- JS `parseInt` restricted to the decimal strings produced by
`Number.prototype.toString` on a Nat (the only inputs it receives here). -/
def parseIntNat (s : String) : Nat := (s.toNat?).getD 0

/-- Comparator of the `byLength` sort pass:
`(a, b) => parseInt(a.name) - parseInt(b.name)`, as a total `le`. JS sort is
stable, as is `List.mergeSort`. -/
def byLengthLe (a b : StatEntry) : Bool := parseIntNat a.name ≤ parseIntNat b.name

/-- Comparator of the `byLetter` sort pass: `a.name.localeCompare(b.name)`.
On the single-character keys produced here (ASCII upper-case letters and
digits) the default-locale collation agrees with codepoint order. -/
def byLetterLe (a b : StatEntry) : Bool := a.name ≤ b.name

/-- `stats` (App.tsx lines 165-186). -/
def stats (filtered : List String) : DomainStats :=
  { total := filtered.length
    byLength :=
      ((byLengthMap filtered).map fun p => StatEntry.mk (toString p.1) p.2).mergeSort byLengthLe
    byLetter :=
      ((byLetterMap filtered).map fun p => StatEntry.mk (String.mk [p.1]) p.2).mergeSort byLetterLe }

/-! ## Paginator (App.tsx lines 189-198) -/

/-- `paginatedDomains` (App.tsx lines 189-192):
`filtered.slice(start, start + itemsPerPage)` with
`start = (currentPage - 1) * itemsPerPage`. -/
def paginatedDomains (filtered : List String) (currentPage : Int) (itemsPerPage : Nat) : List String :=
  let start : Int := (currentPage - 1) * itemsPerPage
  jsSlice filtered start (start + itemsPerPage)

/-- `totalPages = Math.ceil(filteredDomains.length / itemsPerPage)`
(App.tsx line 194); for `itemsPerPage > 0` the ceiling of the exact rational
quotient is `(len + itemsPerPage - 1) / itemsPerPage` in Nat division. -/
def totalPages (filtered : List String) (itemsPerPage : Nat) : Nat :=
  (filtered.length + itemsPerPage - 1) / itemsPerPage

/-! ## Selection Store (App.tsx lines 87-112) -/

/-- `toggleSelection` (App.tsx lines 87-97) on the JS `Set` modelled as an
insertion-ordered list: delete if present, else add at the end. -/
def toggleSelection (selected : List String) (domain : String) : List String :=
  if domain ∈ selected then selected.erase domain else selected ++ [domain]

/-- The text blob built by `downloadSelectedList` (App.tsx line 102):
`Array.from(selectedDomains).join('\n')`. -/
def downloadContent (selected : List String) : String :=
  String.intercalate "\n" selected

/-! ## Corpus ingestion and application state -/

/-- Normalization shared by the fetch path (App.tsx lines 46-48) and
`handleFileUpload` (lines 209-211):
`text.split('\n').map(d => d.trim().toLowerCase()).filter(d => d.length > 0)`. -/
def normalizeLines (text : String) : List String :=
  ((text.splitOn "\n").map fun d => d.trim.toLower).filter fun d => d.length > 0

/-- The initial filter state (App.tsx lines 20-29). -/
def defaultFilters : DomainFilterState :=
  { minLength := 2, maxLength := 26, startsWith := "", hasNumbers := .all,
    extension := .all, firstLetter := "", searchTerm := "", semanticKeywords := [] }

/-- The initial pagination state (App.tsx lines 31-34). -/
def initialPagination : PaginationState :=
  { currentPage := 1, itemsPerPage := 100 }

structure AppState where
  rawDomains : List String
  filters : DomainFilterState
  pagination : PaginationState
  selectedDomains : List String
deriving DecidableEq

/-- The discrete events that mutate the App component's state. -/
inductive Event where
  | fetchSuccess (text : String)
  | uploadCorpus (text : String)
  | setFilters (f : DomainFilterState)
  | prevPage
  | nextPage
  | toggle (domain : String)

/-- One state transition of the App component.

`setFilters` folds in the `useEffect` with dependency array `[filters]`
(App.tsx lines 196-198), which runs before the next render and resets
`currentPage` to 1. `fetchSuccess` (lines 50-51) and `uploadCorpus`
(`handleFileUpload`, lines 202-216) only call `setRawDomains`: no effect
depends on `rawDomains`, so pagination is untouched. `prevPage` / `nextPage`
are the navigation buttons (lines 342, 355). -/
def applyEvent (st : AppState) : Event → AppState
  | .fetchSuccess text => { st with rawDomains := normalizeLines text }
  | .uploadCorpus text => { st with rawDomains := normalizeLines text }
  | .setFilters f =>
      { st with filters := f, pagination := { st.pagination with currentPage := 1 } }
  | .prevPage =>
      { st with pagination := { st.pagination with currentPage := st.pagination.currentPage - 1 } }
  | .nextPage =>
      { st with pagination := { st.pagination with currentPage := st.pagination.currentPage + 1 } }
  | .toggle d => { st with selectedDomains := toggleSelection st.selectedDomains d }

/-! ## Semantic Expansion Adapter (`generateSemanticKeywords`, part_000) -/

/-- The outcome of the `ai.models.generateContent` interaction, as observed by
`generateSemanticKeywords`:
- `failure`: the call (or any later step) threw, landing in the `catch`;
- `noText`: `response.text` was falsy (line 36);
- `parsedArray ks`: `JSON.parse(text)` produced an array of strings (the
  shape the response schema requests);
- `parsedNonArray`: `JSON.parse(text)` produced a non-array value. Every such
  value either throws at `keywords.includes` / `keywords.unshift` (caught by
  the outer `catch`, returning `[userQuery]`) or falls through to the
  `Array.isArray` test on line 46, which also returns `[userQuery]`. -/
inductive ApiOutcome where
  | failure
  | noText
  | parsedArray (ks : List String)
  | parsedNonArray

/-- `userQuery.toLowerCase().replace(/[^a-z0-9]/g, '')` (part_000 line 41).
JS lower-cases the whole string and then deletes every character outside
`[a-z0-9]`; lower-casing character by character is equivalent. -/
def sanitizeQuery (userQuery : String) : String :=
  String.mk ((userQuery.toList.map Char.toLower).filter fun c =>
    ('a' ≤ c ∧ c ≤ 'z') ∨ ('0' ≤ c ∧ c ≤ '9'))

/-- `generateSemanticKeywords` (part_000 lines 5-53), parametrized by the
`API_KEY` environment value and by the outcome of the external call. An empty
`apiKey` string is JS-falsy, so both a missing and an empty credential take
the early-return branch on lines 6-9. -/
def generateSemanticKeywords (apiKey : String) (userQuery : String)
    (outcome : ApiOutcome) : List String :=
  if apiKey = "" then [userQuery]
  else
    match outcome with
    | .failure => [userQuery]
    | .noText => [userQuery]
    | .parsedNonArray => [userQuery]
    | .parsedArray ks =>
        let sanitizedOriginal := sanitizeQuery userQuery
        if sanitizedOriginal ≠ "" ∧ sanitizedOriginal ∉ ks then
          sanitizedOriginal :: ks
        else ks

/-! ## Theorems: Filter Engine -/

theorem lengthStep_sublist (f : DomainFilterState) (l : List String) :
    (lengthStep f l).Sublist l :=
  List.filter_sublist l

theorem extensionStep_sublist (f : DomainFilterState) (l : List String) :
    (extensionStep f l).Sublist l := by
  unfold extensionStep
  split
  · exact List.filter_sublist l
  · exact List.filter_sublist l
  · exact List.Sublist.refl l

theorem numbersStep_sublist (f : DomainFilterState) (l : List String) :
    (numbersStep f l).Sublist l := by
  unfold numbersStep
  split
  · exact List.filter_sublist l
  · exact List.filter_sublist l
  · exact List.Sublist.refl l

theorem startsWithStep_sublist (f : DomainFilterState) (l : List String) :
    (startsWithStep f l).Sublist l := by
  unfold startsWithStep
  split
  · exact List.filter_sublist l
  · exact List.Sublist.refl l

theorem firstLetterStep_sublist (f : DomainFilterState) (l : List String) :
    (firstLetterStep f l).Sublist l := by
  unfold firstLetterStep
  split
  · exact List.filter_sublist l
  · exact List.Sublist.refl l

theorem textStep_sublist (f : DomainFilterState) (l : List String) :
    (textStep f l).Sublist l := by
  unfold textStep
  split
  · exact List.filter_sublist l
  · split
    · exact List.filter_sublist l
    · exact List.Sublist.refl l

theorem filteredDomains_sublist (rawDomains : List String)
    (f : DomainFilterState) :
    (filteredDomains rawDomains f).Sublist rawDomains := by
  unfold filteredDomains nonTextSteps
  exact (((((( textStep_sublist f _).trans
    (firstLetterStep_sublist f _)).trans
    (startsWithStep_sublist f _)).trans
    (numbersStep_sublist f _)).trans
    (extensionStep_sublist f _)).trans
    (lengthStep_sublist f _))

/-- C4: for every corpus and every filter configuration, `filteredDomains` is
a pure function whose output is a subsequence of the corpus in the corpus's
original relative order: stable filtering, no reordering, and no element that
is not drawn from the corpus. -/
theorem filteredDomains_sublist_corpus (rawDomains : List String)
    (f : DomainFilterState) :
    (filteredDomains rawDomains f).Sublist rawDomains :=
  filteredDomains_sublist rawDomains f

/-- C5: for a domain that passed the five non-text predicates, the text-match
step keeps it iff: some semantic keyword is a substring when
`semanticKeywords` is non-empty (OR semantics, `searchTerm` ignored even when
set); else the `searchTerm` is a substring when it is non-empty; else
unconditionally. -/
theorem textStep_membership (rawDomains : List String) (f : DomainFilterState)
    (d : String) (h : d ∈ nonTextSteps f rawDomains) :
    d ∈ filteredDomains rawDomains f ↔
      (if f.semanticKeywords ≠ [] then
        ∃ k ∈ f.semanticKeywords, jsIncludes d k = true
      else if f.searchTerm ≠ "" then jsIncludes d f.searchTerm = true
      else True) := by
  by_cases hkw : f.semanticKeywords = []
  · by_cases hterm : f.searchTerm = ""
    · simp [filteredDomains, textStep, hkw, hterm, h]
    · simp [filteredDomains, textStep, hkw, hterm, h, List.mem_filter]
  · simp [filteredDomains, textStep, hkw, h, List.mem_filter, List.any_eq_true]

/-- Witness for C5 at the spec's own scenario: with keywords
`["loja", "shop"]` active, `"minhaloja.com.br"` is kept because a keyword is
a substring. -/
theorem textStep_membership_witness :
    "minhaloja.com.br" ∈
        filteredDomains ["minhaloja.com.br", "outro.com.br"]
          { defaultFilters with semanticKeywords := ["loja", "shop"] } ↔
      ∃ k ∈ ["loja", "shop"], jsIncludes "minhaloja.com.br" k = true := by
  simpa using
    textStep_membership ["minhaloja.com.br", "outro.com.br"]
      { defaultFilters with semanticKeywords := ["loja", "shop"] }
      "minhaloja.com.br" (by decide)

/-! ## Theorems: Paginator -/

/-- C1 counterexample: `currentPage = -1` is out of range
(`-1 < 1`, `itemsPerPage = 1 > 0`, `totalPages = 3`), yet the slice is the
non-empty `["b"]`: JS `slice` interprets the negative start `-2` and stop
`-1` as offsets from the end of the sequence. -/
theorem paginate_negative_page_counterexample :
    (-1 : Int) < 1 ∧ (0 : Nat) < 1 ∧ totalPages ["a", "b", "c"] 1 = 3 ∧
      paginatedDomains ["a", "b", "c"] (-1) 1 = ["b"] := by decide

/-- For a positive page size, the filtered sequence fits inside
`totalPages` pages. -/
theorem length_le_totalPages_mul (l : List String) (s : Nat) (hs : 0 < s) :
    l.length ≤ totalPages l s * s := by
  unfold totalPages
  have h1 := Nat.div_add_mod (l.length + s - 1) s
  have h2 : (l.length + s - 1) % s < s := Nat.mod_lt _ hs
  rw [Nat.mul_comm] at h1
  generalize (l.length + s - 1) / s * s = m at h1 ⊢
  omega

/-- C1 amended: for every positive `itemsPerPage`, `paginatedDomains` is a
total operation (it never raises), and it returns the empty sequence whenever
`currentPage = 0` or `currentPage > totalPages`; a negative `currentPage`
follows JS negative-index slice semantics and can return a non-empty slice. -/
theorem paginate_out_of_range_empty (l : List String) (page : Int) (s : Nat)
    (hs : 0 < s) (hp : page = 0 ∨ (totalPages l s : Int) < page) :
    paginatedDomains l page s = [] := by
  rcases hp with h0 | hgt
  · subst h0
    have hs' : (0 : Int) < (s : Nat) := by exact_mod_cast hs
    simp only [paginatedDomains, jsSlice]
    rw [List.take_eq_nil_iff]
    left
    split_ifs <;> omega
  · have hlen := length_le_totalPages_mul l s hs
    have hs0 : (0 : Int) ≤ (s : Nat) := Int.ofNat_nonneg s
    have hstart : (totalPages l s : Int) * (s : Nat) ≤ (page - 1) * (s : Nat) :=
      mul_le_mul_of_nonneg_right (by omega) hs0
    have hlenInt : (l.length : Int) ≤ (page - 1) * (s : Nat) := by
      calc (l.length : Int) ≤ (totalPages l s : Int) * (s : Nat) := by
            exact_mod_cast hlen
        _ ≤ (page - 1) * (s : Nat) := hstart
    simp only [paginatedDomains, jsSlice]
    generalize (page - 1) * ((s : Nat) : Int) = st at hlenInt ⊢
    rw [List.take_eq_nil_iff]
    left
    split_ifs <;> omega

/-- Witness for the amended C1: page 7 of a 3-element sequence with page size
2 (`totalPages = 2`) is empty. -/
theorem paginate_out_of_range_empty_witness :
    paginatedDomains ["a", "b", "c"] 7 2 = [] :=
  paginate_out_of_range_empty ["a", "b", "c"] 7 2 (by decide) (Or.inr (by decide))

/-! ## Theorems: Semantic Expansion Adapter -/

/-- C3 counterexample: with a missing credential and the query
`"Pet Shop!"`, `generateSemanticKeywords` returns the raw query
`["Pet Shop!"]`, not the sanitized `["petshop"]` the claim requires. -/
theorem semantic_fallback_counterexample :
    generateSemanticKeywords "" "Pet Shop!" ApiOutcome.failure = ["Pet Shop!"] ∧
    sanitizeQuery "Pet Shop!" = "petshop" ∧
    generateSemanticKeywords "" "Pet Shop!" ApiOutcome.failure ≠
      [sanitizeQuery "Pet Shop!"] := by decide

/-- C3 amended: whenever the semantic expansion call fails or the API-key
credential is empty/missing, `generateSemanticKeywords` returns the
single-element sequence containing the original query unmodified (sanitization
happens only on the success path), rather than raising an error. -/
theorem semantic_fallback_returns_original (apiKey userQuery : String)
    (outcome : ApiOutcome) (h : apiKey = "" ∨ outcome = ApiOutcome.failure) :
    generateSemanticKeywords apiKey userQuery outcome = [userQuery] := by
  rcases h with h | h
  · simp [generateSemanticKeywords, h]
  · subst h
    unfold generateSemanticKeywords
    split <;> rfl

/-- Witness for the amended C3. -/
theorem semantic_fallback_returns_original_witness :
    generateSemanticKeywords "" "Pet Shop!" ApiOutcome.noText = ["Pet Shop!"] :=
  semantic_fallback_returns_original "" "Pet Shop!" ApiOutcome.noText (Or.inl rfl)

/-- C10: when the credential is present and the call succeeds with a parseable
keyword array, the result contains the sanitized original query (assuming it
is non-empty), and it is prepended as the first element whenever the returned
array did not already include it. -/
theorem semantic_success_contains_sanitized (apiKey userQuery : String)
    (ks : List String) (hkey : apiKey ≠ "")
    (hq : sanitizeQuery userQuery ≠ "") :
    sanitizeQuery userQuery ∈
        generateSemanticKeywords apiKey userQuery (ApiOutcome.parsedArray ks) ∧
      (sanitizeQuery userQuery ∉ ks →
        generateSemanticKeywords apiKey userQuery (ApiOutcome.parsedArray ks) =
          sanitizeQuery userQuery :: ks) := by
  by_cases hmem : sanitizeQuery userQuery ∈ ks
  · constructor
    · simp [generateSemanticKeywords, hkey, hmem]
    · intro hc
      exact absurd hmem hc
  · constructor
    · simp [generateSemanticKeywords, hkey, hmem, hq]
    · intro hc
      simp [generateSemanticKeywords, hkey, hmem, hq]

/-- Witness for C10: query `"Pet Shop!"`, AI array `["pet", "shop"]`; the
sanitized query `"petshop"` is prepended. -/
theorem semantic_success_contains_sanitized_witness :
    sanitizeQuery "Pet Shop!" ∈
        generateSemanticKeywords "k" "Pet Shop!"
          (ApiOutcome.parsedArray ["pet", "shop"]) ∧
      (sanitizeQuery "Pet Shop!" ∉ ["pet", "shop"] →
        generateSemanticKeywords "k" "Pet Shop!"
            (ApiOutcome.parsedArray ["pet", "shop"]) =
          sanitizeQuery "Pet Shop!" :: ["pet", "shop"]) :=
  semantic_success_contains_sanitized "k" "Pet Shop!" ["pet", "shop"]
    (by decide) (by decide)

/-! ## Theorems: application state transitions -/

/-- C2 (code behavior at the failing input): replacing the corpus through the
manual file upload while the filters stay unchanged leaves `currentPage` at 5;
only a `filters` change triggers the reset effect, so the required reset to 1
does not happen. -/
theorem corpus_replacement_keeps_currentPage :
    (applyEvent
        { rawDomains := ["abc.com.br"], filters := defaultFilters,
          pagination := { currentPage := 5, itemsPerPage := 100 },
          selectedDomains := [] }
        (Event.uploadCorpus "xyz.com.br\nqrs.com.br")).pagination.currentPage
      = 5 ∧ (5 : Int) ≠ 1 := by
  exact ⟨rfl, by decide⟩

/-- C9: toggling a not-yet-selected domain into the selection and then
changing the filter configuration and the page leaves the selection set
unchanged: the domain is a member exactly once, and the newline-joined export
content is identical to the one right after the toggle. -/
theorem selection_survives_filter_and_page_change (st : AppState) (d : String)
    (f : DomainFilterState) (h : d ∉ st.selectedDomains) :
    (applyEvent (applyEvent (applyEvent st (Event.toggle d))
          (Event.setFilters f)) Event.nextPage).selectedDomains
        = st.selectedDomains ++ [d] ∧
      (applyEvent (applyEvent (applyEvent st (Event.toggle d))
            (Event.setFilters f)) Event.nextPage).selectedDomains.count d = 1 ∧
      downloadContent (applyEvent (applyEvent (applyEvent st (Event.toggle d))
              (Event.setFilters f)) Event.nextPage).selectedDomains
        = downloadContent (applyEvent st (Event.toggle d)).selectedDomains := by
  have hsel : (applyEvent (applyEvent (applyEvent st (Event.toggle d))
      (Event.setFilters f)) Event.nextPage).selectedDomains
      = st.selectedDomains ++ [d] := by
    simp [applyEvent, toggleSelection, h]
  refine ⟨hsel, ?_, ?_⟩
  · rw [hsel, List.count_append]
    rw [List.count_eq_zero.mpr h]
    simp
  · rw [hsel]
    simp [applyEvent, toggleSelection, h]

/-- Witness for C9 at the spec's scenario: `"abc.com.br"` is toggled while
visible, then the filter changes to `searchTerm = "zzz"` (which excludes it
from view); the selection still holds it exactly once. -/
theorem selection_survives_filter_and_page_change_witness :
    (applyEvent (applyEvent (applyEvent
          { rawDomains := ["abc.com.br"], filters := defaultFilters,
            pagination := initialPagination, selectedDomains := [] }
          (Event.toggle "abc.com.br"))
          (Event.setFilters { defaultFilters with searchTerm := "zzz" }))
        Event.nextPage).selectedDomains.count "abc.com.br" = 1 :=
  (selection_survives_filter_and_page_change
    { rawDomains := ["abc.com.br"], filters := defaultFilters,
      pagination := initialPagination, selectedDomains := [] }
    "abc.com.br" { defaultFilters with searchTerm := "zzz" } (by decide)).2.1

/-! ## Theorems: Statistics Aggregator -/

theorem map_fst_map_incr {K : Type} [DecidableEq K] (m : List (K × Nat))
    (k : K) :
    ((m.map fun p => if p.1 = k then (p.1, p.2 + 1) else p).map Prod.fst)
      = m.map Prod.fst := by
  rw [List.map_map]
  apply List.map_congr_left
  intro p _
  by_cases hp : p.1 = k <;> simp [hp]

theorem nodup_map_fst_bump {K : Type} [DecidableEq K] (m : List (K × Nat))
    (k : K) (hnd : (m.map Prod.fst).Nodup) :
    ((bump m k).map Prod.fst).Nodup := by
  unfold bump
  split
  · rwa [map_fst_map_incr]
  · next hnone =>
    rw [List.map_append]
    simp only [List.map_cons, List.map_nil]
    rw [List.nodup_append]
    refine ⟨hnd, List.nodup_singleton k, ?_⟩
    intro a ha hb
    simp only [List.mem_singleton] at hb
    subst hb
    simp only [List.any_eq_true, decide_eq_true_eq, not_exists, not_and] at hnone
    obtain ⟨p, hp, hpk⟩ := List.mem_map.mp ha
    exact hnone p hp hpk

theorem sum_map_snd_incr {K : Type} [DecidableEq K] :
    ∀ (m : List (K × Nat)) (k : K), (m.map Prod.fst).Nodup →
      (m.any fun p => decide (p.1 = k)) = true →
      (((m.map fun p => if p.1 = k then (p.1, p.2 + 1) else p).map
          Prod.snd).sum)
        = (m.map Prod.snd).sum + 1 := by
  intro m
  induction m with
  | nil =>
    intro k _ hany
    simp at hany
  | cons p t ih =>
    intro k hnd hany
    simp only [List.map_cons, List.nodup_cons] at hnd
    by_cases hp : p.1 = k
    · have htail : (t.map fun q => if q.1 = k then (q.1, q.2 + 1) else q) = t := by
        have heach : ∀ q ∈ t, (if q.1 = k then (q.1, q.2 + 1) else q) = q := by
          intro q hq
          rw [if_neg]
          intro he
          exact hnd.1 (List.mem_map.mpr ⟨q, hq, he.trans hp.symm⟩)
        rw [List.map_congr_left heach]
        simp
      simp only [List.map_cons, if_pos hp, htail, List.sum_cons]
      omega
    · have hany' : (t.any fun q => decide (q.1 = k)) = true := by
        simp only [List.any_cons, Bool.or_eq_true, decide_eq_true_eq] at hany
        rcases hany with hh | hh
        · exact absurd hh hp
        · exact hh
      simp only [List.map_cons, if_neg hp, List.sum_cons]
      rw [ih k hnd.2 hany']
      omega

theorem sum_map_snd_bump {K : Type} [DecidableEq K] (m : List (K × Nat))
    (k : K) (hnd : (m.map Prod.fst).Nodup) :
    ((bump m k).map Prod.snd).sum = (m.map Prod.snd).sum + 1 := by
  unfold bump
  split
  · next hany => exact sum_map_snd_incr m k hnd hany
  · simp

theorem byLengthMap_aux :
    ∀ (l : List String) (m : List (Nat × Nat)), (m.map Prod.fst).Nodup →
      (((l.foldl (fun acc d => bump acc d.length) m).map Prod.snd).sum
          = (m.map Prod.snd).sum + l.length)
        ∧ ((l.foldl (fun acc d => bump acc d.length) m).map Prod.fst).Nodup := by
  intro l
  induction l with
  | nil =>
    intro m hnd
    exact ⟨by simp, by simpa using hnd⟩
  | cons d t ih =>
    intro m hnd
    simp only [List.foldl_cons, List.length_cons]
    obtain ⟨h1, h2⟩ := ih (bump m d.length) (nodup_map_fst_bump m d.length hnd)
    refine ⟨?_, h2⟩
    rw [h1, sum_map_snd_bump m d.length hnd]
    omega

theorem toList_eq_nil_iff (d : String) : d.toList = [] ↔ d = "" := by
  cases d with
  | mk data =>
    constructor
    · intro h
      have hdata : data = [] := h
      subst hdata
      rfl
    · intro h
      rw [h]
      rfl

theorem byLetterMap_aux :
    ∀ (l : List String) (m : List (Char × Nat)), (m.map Prod.fst).Nodup →
      (∀ d ∈ l, d ≠ "") →
      (((l.foldl
            (fun acc d =>
              match d.toList.head? with
              | none => acc
              | some c => bump acc c.toUpper)
            m).map Prod.snd).sum
          = (m.map Prod.snd).sum + l.length)
        ∧ ((l.foldl
            (fun acc d =>
              match d.toList.head? with
              | none => acc
              | some c => bump acc c.toUpper)
            m).map Prod.fst).Nodup := by
  intro l
  induction l with
  | nil =>
    intro m hnd _
    exact ⟨by simp, by simpa using hnd⟩
  | cons d t ih =>
    intro m hnd hne
    obtain ⟨c, hc⟩ : ∃ c, d.toList.head? = some c := by
      cases hh : d.toList.head? with
      | none =>
        exact absurd ((toList_eq_nil_iff d).mp (List.head?_eq_none_iff.mp hh))
          (hne d (List.mem_cons_self d t))
      | some c => exact ⟨c, rfl⟩
    simp only [List.foldl_cons, List.length_cons, hc]
    obtain ⟨h1, h2⟩ := ih (bump m c.toUpper) (nodup_map_fst_bump m c.toUpper hnd)
      (fun x hx => hne x (List.mem_cons_of_mem d hx))
    refine ⟨?_, h2⟩
    rw [h1, sum_map_snd_bump m c.toUpper hnd]
    omega

/-- C6: on every filtered sequence the program produces, the counts grouped
by length and the counts grouped by first letter each sum to `total`, the
length of the filtered sequence. -/
theorem stats_sum_counts (text : String) (f : DomainFilterState) :
    (((stats (filteredDomains (normalizeLines text) f)).byLength.map
          StatEntry.value).sum
        = (stats (filteredDomains (normalizeLines text) f)).total)
      ∧ ((stats (filteredDomains (normalizeLines text) f)).total
        = ((stats (filteredDomains (normalizeLines text) f)).byLetter.map
            StatEntry.value).sum) := by
  set l := filteredDomains (normalizeLines text) f with hl
  have hne : ∀ d ∈ l, d ≠ "" := by
    intro d hd
    have hmem : d ∈ normalizeLines text :=
      (filteredDomains_sublist (normalizeLines text) f).subset hd
    unfold normalizeLines at hmem
    rw [List.mem_filter] at hmem
    intro he
    subst he
    exact absurd hmem.2 (by decide)
  constructor
  · show ((stats l).byLength.map StatEntry.value).sum = (stats l).total
    simp only [stats]
    rw [List.Perm.sum_eq ((List.mergeSort_perm _ byLengthLe).map StatEntry.value)]
    rw [List.map_map]
    have hcomp :
        (StatEntry.value ∘ fun p : Nat × Nat => StatEntry.mk (toString p.1) p.2)
          = Prod.snd := rfl
    rw [hcomp]
    have haux := (byLengthMap_aux l [] (by simp)).1
    simpa [byLengthMap] using haux
  · show (stats l).total = ((stats l).byLetter.map StatEntry.value).sum
    simp only [stats]
    rw [List.Perm.sum_eq ((List.mergeSort_perm _ byLetterLe).map StatEntry.value)]
    rw [List.map_map]
    have hcomp :
        (StatEntry.value ∘ fun p : Char × Nat => StatEntry.mk (String.mk [p.1]) p.2)
          = Prod.snd := rfl
    rw [hcomp]
    have haux := (byLetterMap_aux l [] (by simp) hne).1
    simp only [byLetterMap, List.map_nil, List.sum_nil] at haux ⊢
    omega

/-- For a page number `p + 1 ≥ 1`, the JS slice degenerates to
drop-then-take. -/
theorem paginatedDomains_succ (l : List String) (p s : Nat) :
    paginatedDomains l ((p : Int) + 1) s = (l.drop (p * s)).take s := by
  simp only [paginatedDomains, jsSlice]
  have h1 : ((p : Int) + 1 - 1) * (s : Nat) = ((p * s : Nat) : Int) := by
    push_cast
    ring
  rw [h1]
  have h2 : ((p * s : Nat) : Int) + (s : Nat) = ((p * s + s : Nat) : Int) := by
    push_cast
    ring
  rw [h2]
  rw [if_neg (by omega), if_neg (by omega)]
  by_cases hle : p * s ≤ l.length
  · have hk : (min ((p * s : Nat) : Int) (l.length : Int)).toNat = p * s := by
      omega
    have hc : (min ((p * s + s : Nat) : Int) (l.length : Int)
          - min ((p * s : Nat) : Int) (l.length : Int)).toNat
        = min s (l.length - p * s) := by
      omega
    rw [hk, hc]
    rw [List.take_eq_take]
    simp only [List.length_drop]
    omega
  · have hk : (min ((p * s : Nat) : Int) (l.length : Int)).toNat = l.length := by
      omega
    rw [hk, List.drop_length, List.drop_eq_nil_of_le (by omega)]
    simp

/-- Concatenating the size-`s` chunks of `l` for chunk indices `0 .. n-1`
rebuilds `l`, provided `n` chunks suffice to cover it. -/
theorem flatten_chunks (s : Nat) :
    ∀ (n : Nat) (l : List String), l.length ≤ n * s →
      ((List.range n).map fun i => (l.drop (i * s)).take s).flatten = l := by
  intro n
  induction n with
  | zero =>
    intro l h
    simp only [Nat.zero_mul, Nat.le_zero, List.length_eq_zero] at h
    simp [h]
  | succ n ih =>
    intro l h
    rw [List.range_succ_eq_map]
    simp only [List.map_cons, List.map_map, List.flatten_cons, Nat.zero_mul,
      List.drop_zero]
    have hmap : (List.range n).map
          ((fun i => (l.drop (i * s)).take s) ∘ Nat.succ)
        = (List.range n).map fun i => ((l.drop s).drop (i * s)).take s := by
      apply List.map_congr_left
      intro i _
      simp only [Function.comp_apply, Nat.succ_eq_add_one]
      rw [List.drop_drop]
      congr 1
      congr 1
      ring
    rw [hmap]
    rw [Nat.succ_mul] at h
    rw [ih (l.drop s) (by simp only [List.length_drop]; omega)]
    exact List.take_append_drop s l

/-- C7: for every positive page size, concatenating
`paginatedDomains` over pages `1 .. totalPages` reconstructs the filtered
sequence exactly, with no element repeated across pages and none omitted. -/
theorem paginate_reconstructs (l : List String) (s : Nat) (hs : 0 < s) :
    ((List.range (totalPages l s)).map fun i : Nat =>
        paginatedDomains l ((i : Int) + 1) s).flatten = l := by
  have hmap : (List.range (totalPages l s)).map
        (fun i : Nat => paginatedDomains l ((i : Int) + 1) s)
      = (List.range (totalPages l s)).map fun i => (l.drop (i * s)).take s :=
    List.map_congr_left fun i _ => paginatedDomains_succ l i s
  rw [hmap]
  exact flatten_chunks s (totalPages l s) l (length_le_totalPages_mul l s hs)

/-- Witness for C7: the two pages of size 2 over a 3-element sequence
concatenate back to it. -/
theorem paginate_reconstructs_witness :
    ((List.range (totalPages ["a", "b", "c"] 2)).map fun i : Nat =>
        paginatedDomains ["a", "b", "c"] ((i : Int) + 1) 2).flatten
      = ["a", "b", "c"] :=
  paginate_reconstructs ["a", "b", "c"] 2 (by decide)

/-- C8: in every computed statistics value, `byLength` is sorted ascending by
the numeric value of its name (so length 10 sorts after length 9, unlike a
string sort) and `byLetter` is sorted lexicographically ascending by its
upper-cased first-character key. -/
theorem stats_sorted (l : List String) :
    ((stats l).byLength.Pairwise fun a b =>
        parseIntNat a.name ≤ parseIntNat b.name)
      ∧ ((stats l).byLetter.Pairwise fun a b => a.name ≤ b.name) := by
  constructor
  · have h := @List.sorted_mergeSort StatEntry byLengthLe
      (fun a b c hab hbc => by
        simp only [byLengthLe, decide_eq_true_eq] at *
        omega)
      (fun a b => by
        simp only [byLengthLe, Bool.or_eq_true, decide_eq_true_eq]
        omega)
      ((byLengthMap l).map fun p => StatEntry.mk (toString p.1) p.2)
    simp only [stats]
    exact h.imp fun hab => by
      simpa only [byLengthLe, decide_eq_true_eq] using hab
  · have h := @List.sorted_mergeSort StatEntry byLetterLe
      (fun a b c hab hbc => by
        simp only [byLetterLe, decide_eq_true_eq] at *
        exact le_trans hab hbc)
      (fun a b => by
        simp only [byLetterLe, Bool.or_eq_true, decide_eq_true_eq]
        exact le_total a.name b.name)
      ((byLetterMap l).map fun p => StatEntry.mk (String.mk [p.1]) p.2)
    simp only [stats]
    exact h.imp fun hab => by
      simpa only [byLetterLe, decide_eq_true_eq] using hab

end DominioExplorer
